import Mathlib

/-!
Verification of the el_estate telegram bot's access-control and
extraction-pipeline logic against its specification.

The definitions below are shallow embeddings of the Python sources:

* src/bot/middlewares/whitelist.py : admin bypass, Redis membership check
  with cached fallback, cache refresh with empty-pull guard, backup
  reconciliation, and the /start bypass in the middleware dispatcher.
* src/bot/admin/commands.py : the union-first backup rewrite.
* src/bot/services/scraping.py : watermark crop geometry, CDN URL
  normalization (re.sub of the size suffix), browser-scrape retry loop,
  image-fetch retry loop.
* src/bot/user/handlers.py : the media-group send loop with rate-limit
  handling.

Effectful Python code is modelled by explicit outcome oracles (one
constructor per distinct runtime outcome of each awaited call), and loops
by fuel-indexed structural recursion with fuel chosen to cover the loop
bound, so every definition is executable.
-/

/- ------------------------------------------------------------------ -/
/- Access gate: WhitelistMiddleware._is_allowed                        -/
/- ------------------------------------------------------------------ -/

/-- Outcome of the awaited `redis.sismember` call: either a boolean reply
or a raised exception (connection error, WRONGTYPE, ...). -/
inductive StoreReply where
  | ok (b : Bool)
  | err

/-- WhitelistMiddleware._is_allowed: admins pass unconditionally; otherwise
the durable store is consulted, and on a store exception the in-memory
cached snapshot is consulted instead (fail-open). -/
def isAllowed (adminIds : List Int) (store : StoreReply) (cached : List Int)
    (userId : Int) : Bool :=
  if userId ∈ adminIds then true
  else
    match store with
    | StoreReply.ok b => b
    | StoreReply.err => decide (userId ∈ cached)

/- ------------------------------------------------------------------ -/
/- Middleware dispatch: WhitelistMiddleware.__call__                   -/
/- ------------------------------------------------------------------ -/

/-- Incoming update, as far as the middleware inspects it: a message with
optional sender id and optional text, a callback query with optional
sender id, or any other Telegram object. Text is modelled as a character
list. -/
inductive TgEvent where
  | message (fromUser : Option Int) (text : Option (List Char))
  | callback (fromUser : Option Int)
  | other

/-- What the middleware does with an update: pass it to the downstream
handler, or answer with the access-denied message and drop it. -/
inductive Outcome where
  | handled
  | denied

/-- Boolean prefix test on character lists (Python str.startswith). -/
def lpre : List Char → List Char → Bool
  | [], _ => true
  | _ :: _, [] => false
  | p :: ps, c :: cs => if p = c then lpre ps cs else false

/-- The user id the middleware extracts from the event. -/
def eventUserId : TgEvent → Option Int
  | TgEvent.message u _ => u
  | TgEvent.callback u => u
  | TgEvent.other => none

/-- The /start test applied to messages: (event.text or "").startswith("/start"). -/
def isStartText : TgEvent → Bool
  | TgEvent.message _ t => lpre ("/start").data (t.getD [])
  | _ => false

/-- WhitelistMiddleware.__call__, reduced to its dispatch decision: events
without a user id are forwarded; messages whose text starts with /start
are forwarded without any allow check; otherwise the allow check decides. -/
def middlewareCall (adminIds : List Int) (store : StoreReply)
    (cached : List Int) (e : TgEvent) : Outcome :=
  match eventUserId e with
  | none => Outcome.handled
  | some _ =>
    if isStartText e then Outcome.handled
    else if isAllowed adminIds store cached ((eventUserId e).getD 0) then
      Outcome.handled
    else Outcome.denied

/- ------------------------------------------------------------------ -/
/- Cache refresh: WhitelistMiddleware._refresh_cache                   -/
/- ------------------------------------------------------------------ -/

/-- The in-memory fallback cache together with its last-refresh stamp. -/
structure CacheState where
  cached : List Int
  lastRefresh : Nat

/-- WhitelistMiddleware._refresh_cache. The pull is either an exception
(`none`) or the list of raw members, each given as its int-parse result
(`none` for members that fail int()). An empty normalized set is
discarded, keeping the previous snapshot and stamp. -/
def refreshCache (st : CacheState) (pull : Option (List (Option Int)))
    (now : Nat) : CacheState :=
  match pull with
  | none => st
  | some items =>
    let normalized := (items.filterMap id).dedup
    if normalized.isEmpty then st
    else { cached := normalized, lastRefresh := now }

/- ------------------------------------------------------------------ -/
/- Reconciliation: WhitelistMiddleware._maybe_restore_from_backup      -/
/- and the backup rewrite admin/commands.py _write_backup              -/
/- ------------------------------------------------------------------ -/

/-- Python str() on an int, as used when writing ids into the Redis set. -/
def strOfInt (i : Int) : String := toString i

/-- WhitelistMiddleware._maybe_restore_from_backup, as the store contents
after the pass. `attempted` is the once-only guard; `smembersFail` and
`saddFail` model the two awaited Redis calls raising. `storeIds` is the
live Redis set (strings), `backupIds` the parsed backup file. -/
def reconcileStore (attempted smembersFail saddFail : Bool)
    (storeIds : List String) (backupIds : List Int) : List String :=
  if attempted then storeIds
  else if smembersFail then storeIds
  else if !storeIds.isEmpty then
    let missing := (backupIds.map strOfInt).filter (fun s => decide (s ∉ storeIds))
    if missing.isEmpty then storeIds
    else if saddFail then storeIds
    else storeIds ++ missing
  else if backupIds.isEmpty then storeIds
  else if saddFail then storeIds
  else storeIds ++ backupIds.map strOfInt

/-- admin/commands.py _write_backup: the id set written to the backup file,
built union-first from the existing file and the live store, then the
single add/remove hint is applied. -/
def writeBackup (fileIds redisIds : Finset Int)
    (addId removeId : Option Int) : Finset Int :=
  let items := fileIds ∪ redisIds
  let items2 := match addId with
    | some i => insert i items
    | none => items
  match removeId with
  | some i => items2.erase i
  | none => items2

/- ------------------------------------------------------------------ -/
/- Watermark crop: scraping.py _remove_watermark                       -/
/- ------------------------------------------------------------------ -/

/-- A PIL crop box (left, top, right, bottom). -/
structure CropBox where
  left : Nat
  top : Nat
  right : Nat
  bottom : Nat

/-- scraping.py _remove_watermark: the crop box (0, 0, width, new_height)
with new_height = int(height * (100 - crop_percent) / 100); for
crop_percent in 0..100 the float truncation coincides with natural floor
division. -/
def removeWatermarkBox (width height cropPercent : Nat) : CropBox :=
  { left := 0, top := 0, right := width,
    bottom := height * (100 - cropPercent) / 100 }

/-- Width of the image PIL produces from a crop box. -/
def boxWidth (b : CropBox) : Nat := b.right - b.left

/-- Height of the image PIL produces from a crop box. -/
def boxHeight (b : CropBox) : Nat := b.bottom - b.top

/- ------------------------------------------------------------------ -/
/- Extraction retry: scraping.py _browser_scrape_with_retry            -/
/- ------------------------------------------------------------------ -/

/-- Outcome of one _browser_scrape call: it raises, or returns a list of
image source URLs. -/
inductive ScrapeOut where
  | raise
  | ret (imgs : List String)

/-- An attempt that does not stop the retry loop: it raised or returned
no images. -/
def scrapeFailed : ScrapeOut → Bool
  | ScrapeOut.raise => true
  | ScrapeOut.ret imgs => imgs.isEmpty

/-- What one run of _browser_scrape_with_retry did: the returned list,
how many attempts were consumed, and the sleeps performed between
attempts. -/
structure ScrapeResult where
  imgs : List String
  attempts : Nat
  sleeps : List Nat

/-- The loop of _browser_scrape_with_retry: attempts are numbered from 1,
the loop runs while the attempt number is at most retries + 1, a
non-empty result returns immediately, and after a failed attempt number
a ≤ retries the loop sleeps backoff * a. Fuel-indexed structural
recursion; fuel ≥ retries + 1 covers the whole loop. -/
def scrapeGo (retries backoff : Nat) (f : Nat → ScrapeOut) :
    Nat → Nat → ScrapeResult
  | 0, _ => { imgs := [], attempts := 0, sleeps := [] }
  | fuel + 1, a =>
    if a ≤ retries + 1 then
      match f a with
      | ScrapeOut.ret imgs =>
        if imgs.isEmpty then
          let r := scrapeGo retries backoff f fuel (a + 1)
          { imgs := r.imgs, attempts := r.attempts + 1,
            sleeps := (if a ≤ retries then [backoff * a] else []) ++ r.sleeps }
        else { imgs := imgs, attempts := 1, sleeps := [] }
      | ScrapeOut.raise =>
        let r := scrapeGo retries backoff f fuel (a + 1)
        { imgs := r.imgs, attempts := r.attempts + 1,
          sleeps := (if a ≤ retries then [backoff * a] else []) ++ r.sleeps }
    else { imgs := [], attempts := 0, sleeps := [] }

/-- scraping.py _browser_scrape_with_retry, attempt outcomes given by f. -/
def browserScrapeWithRetry (retries backoff : Nat) (f : Nat → ScrapeOut) :
    ScrapeResult :=
  scrapeGo retries backoff f (retries + 1) 1

/- ------------------------------------------------------------------ -/
/- Image fetch retry: scraping.py _fetch_image                         -/
/- ------------------------------------------------------------------ -/

/-- Outcome of one fetch attempt: an HTTP 200 with the given body bytes,
a non-200 status, or a raised timeout/transport error. -/
inductive FetchOut where
  | ok (body : List Nat)
  | non200
  | exn

/-- What one run of _fetch_image did. -/
structure FetchResult where
  body : List Nat
  attempts : Nat
  sleeps : List Nat

/-- The loop of _fetch_image: attempts numbered from 1 up to retries + 1,
a 200 response returns its body immediately (even when that body is
empty), non-200 and exceptions retry, a sleep of backoff * a follows a
failed attempt a ≤ retries, and after exhausting the loop empty bytes
are returned. -/
def fetchGo (retries backoff : Nat) (f : Nat → FetchOut) :
    Nat → Nat → FetchResult
  | 0, _ => { body := [], attempts := 0, sleeps := [] }
  | fuel + 1, a =>
    if a ≤ retries + 1 then
      match f a with
      | FetchOut.ok b => { body := b, attempts := 1, sleeps := [] }
      | FetchOut.non200 =>
        let r := fetchGo retries backoff f fuel (a + 1)
        { body := r.body, attempts := r.attempts + 1,
          sleeps := (if a ≤ retries then [backoff * a] else []) ++ r.sleeps }
      | FetchOut.exn =>
        let r := fetchGo retries backoff f fuel (a + 1)
        { body := r.body, attempts := r.attempts + 1,
          sleeps := (if a ≤ retries then [backoff * a] else []) ++ r.sleeps }
    else { body := [], attempts := 0, sleeps := [] }

/-- scraping.py _fetch_image, attempt outcomes given by f. -/
def fetchImage (retries backoff : Nat) (f : Nat → FetchOut) : FetchResult :=
  fetchGo retries backoff f (retries + 1) 1

/- ------------------------------------------------------------------ -/
/- Batch delivery: handlers.py _do_scrape_and_send, media group loop   -/
/- ------------------------------------------------------------------ -/

/-- Outcome of one send_media_group call: success, TelegramRetryAfter
carrying the server delay, or any other exception. -/
inductive SendOut where
  | success
  | rateLimited (d : Nat)
  | failure

/-- What one run of the batch send loop did: whether the batch was
delivered, whether last_exc was set when the loop ended (triggering the
per-photo fallback), the number of send calls, the sleeps performed, and
the batch passed to each send call. -/
structure SendResult (α : Type) where
  delivered : Bool
  hardFailed : Bool
  sends : Nat
  sleeps : List Nat
  sent : List α

/-- The while loop of the batch send: attempt counts from 0 and the loop
runs while attempt < retries. Success breaks with last_exc cleared; a
rate-limit signal sleeps d + 1 and retries without touching last_exc; any
other exception records last_exc and sleeps 3. Fuel-indexed; fuel =
retries - attempt covers the loop. -/
def sendBatchGo {α : Type} (media : α) (retries : Nat) (f : Nat → SendOut) :
    Nat → Nat → Bool → SendResult α
  | 0, _, lastExc =>
    { delivered := false, hardFailed := lastExc, sends := 0,
      sleeps := [], sent := [] }
  | fuel + 1, attempt, lastExc =>
    if attempt < retries then
      match f attempt with
      | SendOut.success =>
        { delivered := true, hardFailed := false, sends := 1,
          sleeps := [], sent := [media] }
      | SendOut.rateLimited d =>
        let r := sendBatchGo media retries f fuel (attempt + 1) lastExc
        { delivered := r.delivered, hardFailed := r.hardFailed,
          sends := r.sends + 1, sleeps := (d + 1) :: r.sleeps,
          sent := media :: r.sent }
      | SendOut.failure =>
        let r := sendBatchGo media retries f fuel (attempt + 1) true
        { delivered := r.delivered, hardFailed := r.hardFailed,
          sends := r.sends + 1, sleeps := 3 :: r.sleeps,
          sent := media :: r.sent }
    else
      { delivered := false, hardFailed := lastExc, sends := 0,
        sleeps := [], sent := [] }

/-- handlers.py batch send loop (retries = 5 in the source), attempt
outcomes given by f. -/
def sendBatch {α : Type} (media : α) (retries : Nat) (f : Nat → SendOut) :
    SendResult α :=
  sendBatchGo media retries f retries 0 false

/-- The delay carried by a rate-limit outcome. -/
def rlDelay : SendOut → Nat
  | SendOut.rateLimited d => d
  | _ => 0

/- ------------------------------------------------------------------ -/
/- CDN URL normalization: scraping.py _normalize_image_url             -/
/- ------------------------------------------------------------------ -/

/-- Boolean substring test on character lists (Python `in` on str). -/
def hasSub (pat : List Char) : List Char → Bool
  | [] => pat.isEmpty
  | c :: t => lpre pat (c :: t) || hasSub pat t

/-- Boolean suffix test on character lists (Python str.endswith). -/
def endsWithL (l suf : List Char) : Bool := lpre suf.reverse l.reverse

/-- Python url.rstrip of the slash character. -/
def rstripSlash (l : List Char) : List Char :=
  (l.reverse.dropWhile (fun c => c = '/')).reverse

/-- Splits off the maximal leading run of ASCII digits, as the regex
atom d+ consumes it. -/
def spanDigits : List Char → List Char × List Char
  | [] => ([], [])
  | c :: t =>
    if c.isDigit then
      let p := spanDigits t
      (c :: p.1, p.2)
    else ([], c :: t)

/-- Matches the regex tail d+ x d+ at the head of the list, returning the
remainder after the match. -/
def parseTail (l : List Char) : Option (List Char) :=
  let p1 := spanDigits l
  if p1.1.isEmpty then none
  else
    match p1.2 with
    | c :: r2 =>
      if c = 'x' then
        let p2 := spanDigits r2
        if p2.1.isEmpty then none else some p2.2
      else none
    | [] => none

/-- Matches the whole regex ;s=d+xd+ at the head of the list, returning
the remainder after the match. -/
def matchSize (l : List Char) : Option (List Char) :=
  match l with
  | c1 :: c2 :: c3 :: rest =>
    if c1 = ';' ∧ c2 = 's' ∧ c3 = '=' then parseTail rest else none
  | _ => none

/-- The replacement text of the re.sub call. -/
def sizeRep : List Char := (";s=1600x1600").data

/-- One left-to-right re.sub pass: at each position, replace a match of
;s=d+xd+ by sizeRep and continue after it, otherwise keep the character.
Fuel-indexed; fuel ≥ length covers the scan because every step consumes
at least one character. -/
def substGo : Nat → List Char → List Char
  | 0, l => l
  | _ + 1, [] => []
  | fuel + 1, c :: t =>
    match matchSize (c :: t) with
    | some r => sizeRep ++ substGo fuel r
    | none => c :: substGo fuel t

/-- re.sub of the size pattern by ;s=1600x1600 over the whole string. -/
def reSubSize (l : List Char) : List Char := substGo l.length l

/-- The CDN host needle of _normalize_image_url. -/
def apolloNeedle : List Char := ("apollo.olxcdn.com").data

/-- The /image needle of _normalize_image_url. -/
def imageNeedle : List Char := ("/image").data

/-- The ;s= needle of _normalize_image_url. -/
def sizeKeyNeedle : List Char := (";s=").data

/-- The /image; needle of _normalize_image_url. -/
def imageSemiNeedle : List Char := ("/image;").data

/-- The text appended in the /image; branch of _normalize_image_url. -/
def sizeSuffixText : List Char := ("s=1600x1600").data

/-- scraping.py _normalize_image_url: apollo.olxcdn.com image URLs get a
;s=1600x1600 size variant (rewriting an existing ;s=WxH suffix, else
appending after /image; or after a trailing /image); every other URL is
returned unchanged. -/
def normalizeImageUrl (u : List Char) : List Char :=
  if hasSub apolloNeedle u && hasSub imageNeedle u then
    if hasSub sizeKeyNeedle u then reSubSize u
    else if hasSub imageSemiNeedle u then rstripSlash u ++ sizeSuffixText
    else if endsWithL u imageNeedle then u ++ sizeRep
    else u
  else u

/-- A sample whitelisted-member snapshot state used by witnesses. -/
def sampleCache : CacheState := { cached := [1, 2], lastRefresh := 5 }

/-- A fetch attempt that does not stop the retry loop: non-200 or a
raised error. -/
def fetchFailed : FetchOut → Bool
  | FetchOut.ok _ => false
  | FetchOut.non200 => true
  | FetchOut.exn => true

/-- Witness input: a scrape that raises once, then finds one image. -/
def scrapeOnceThenOk : Nat → ScrapeOut :=
  fun n => if n = 1 then ScrapeOut.raise else ScrapeOut.ret ["u"]

/-- Counterexample input: every fetch attempt answers 200 with an empty
body. -/
def fetchEmptyBody : Nat → FetchOut := fun _ => FetchOut.ok []

/-- Witness input: a fetch that errors once, then succeeds with one byte. -/
def fetchOnceThenOk : Nat → FetchOut :=
  fun n => if n = 1 then FetchOut.exn else FetchOut.ok [7]

/-- Witness input: a fetch whose every attempt raises. -/
def fetchAllFail : Nat → FetchOut := fun _ => FetchOut.exn

/-- Witness input: a send that is rate limited once with delay 3, then
succeeds. -/
def sendRlThenOk : Nat → SendOut :=
  fun n => if n = 0 then SendOut.rateLimited 3 else SendOut.success

/-- Counterexample input: every send attempt answers a rate-limit signal
with delay 3. -/
def sendAllRl : Nat → SendOut := fun _ => SendOut.rateLimited 3

/-- Counterexample input for idempotence: an apollo CDN URL with /image;
in the middle and no size marker. -/
def c6BadUrl : List Char := ("apollo.olxcdn.com/image;x").data

/-- Witness input: a real-shaped otodom CDN URL ending in /image;. -/
def c6GoodUrl : List Char := ("https://apollo.olxcdn.com/v1/files/abc/image;").data

/- ================================================================== -/
/- Theorems                                                            -/
/- ================================================================== -/

/-- C1: every principal in the configured admin set passes the access
check, whatever the store replies (including an exception) and whatever
the cached snapshot holds (including the empty one). -/
theorem c1_admin_always_allowed :
    ∀ (adminIds : List Int) (store : StoreReply) (cached : List Int)
      (uid : Int), uid ∈ adminIds → isAllowed adminIds store cached uid = true := by
  intro adminIds store cached uid h
  simp [isAllowed, h]

/-- Witness for C1 at admin id 7, store erroring, cache empty. -/
theorem c1_admin_always_allowed_witness :
    (7 : Int) ∈ [(7 : Int)] ∧ isAllowed [7] StoreReply.err [] 7 = true :=
  ⟨by decide, c1_admin_always_allowed [7] StoreReply.err [] 7 (by decide)⟩

/-- C2: for a non-admin principal, a store exception makes the check fall
back to the cached snapshot without raising: it returns true exactly when
the id is in the snapshot, in particular true when the snapshot contains
the id. -/
theorem c2_store_error_fail_open :
    ∀ (adminIds cached : List Int) (uid : Int), uid ∉ adminIds →
      ((isAllowed adminIds StoreReply.err cached uid = true) ↔ uid ∈ cached)
      ∧ (uid ∈ cached → isAllowed adminIds StoreReply.err cached uid = true) := by
  intro adminIds cached uid h
  constructor
  · simp [isAllowed, h]
  · intro hc
    simp [isAllowed, h, hc]

/-- Witness for C2 at principal 42 with the snapshot containing 42. -/
theorem c2_store_error_fail_open_witness :
    (42 : Int) ∉ ([] : List Int) ∧ (42 : Int) ∈ [(42 : Int)]
    ∧ isAllowed [] StoreReply.err [42] 42 = true :=
  ⟨by decide, by decide,
    (c2_store_error_fail_open [] [42] 42 (by decide)).2 (by decide)⟩

/-- C10: a message whose text starts with /start is forwarded to the
downstream handler even when the access check would deny its sender. -/
theorem c10_start_bypasses_allow_check :
    ∀ (adminIds : List Int) (store : StoreReply) (cached : List Int)
      (uid : Int) (t : List Char),
      lpre ("/start").data t = true →
      isAllowed adminIds store cached uid = false →
      middlewareCall adminIds store cached
        (TgEvent.message (some uid) (some t)) = Outcome.handled := by
  intro adminIds store cached uid t ht _
  simp [middlewareCall, eventUserId, isStartText, ht]

/-- Witness for C10: a denied principal sending /start is still handled. -/
theorem c10_start_bypasses_allow_check_witness :
    lpre ("/start").data (("/start hello").data) = true
    ∧ isAllowed [] (StoreReply.ok false) [] 5 = false
    ∧ middlewareCall [] (StoreReply.ok false) []
        (TgEvent.message (some 5) (some (("/start hello").data)))
      = Outcome.handled :=
  ⟨by decide, by decide,
    c10_start_bypasses_allow_check [] (StoreReply.ok false) [] 5
      (("/start hello").data) (by decide) (by decide)⟩

/-- C4: a refresh whose pulled membership normalizes to the empty set is
discarded — the cached snapshot and the last-refresh stamp keep their
previous values (likewise when the pull itself raises). -/
theorem c4_empty_pull_keeps_snapshot :
    ∀ (st : CacheState) (items : List (Option Int)) (now : Nat),
      (items.filterMap id = [] →
        (refreshCache st (some items) now).cached = st.cached
        ∧ (refreshCache st (some items) now).lastRefresh = st.lastRefresh)
      ∧ (refreshCache st none now).cached = st.cached
      ∧ (refreshCache st none now).lastRefresh = st.lastRefresh := by
  intro st items now
  refine ⟨fun h => ?_, rfl, rfl⟩
  simp [refreshCache, h]

/-- Witness for C4: a pull of one unparsable member leaves the sample
snapshot untouched. -/
theorem c4_empty_pull_keeps_snapshot_witness :
    ([none].filterMap (id : Option Int → Option Int) = [])
    ∧ (refreshCache sampleCache (some [none]) 99).cached = sampleCache.cached :=
  ⟨by decide, ((c4_empty_pull_keeps_snapshot sampleCache [none] 99).1 (by decide)).1⟩

/-- C5: the crop box keeps the full width, is anchored at the top, and has
height floor(H * (100 - p) / 100), which is antitone in the crop percent,
equals H at percent 0, and equals 850 for H = 1000, p = 15. -/
theorem c5_crop_geometry :
    (∀ (w h p : Nat), p ≤ 100 →
      boxHeight (removeWatermarkBox w h p) = h * (100 - p) / 100
      ∧ boxWidth (removeWatermarkBox w h p) = w
      ∧ (removeWatermarkBox w h p).top = 0
      ∧ (∀ q, p ≤ q → q ≤ 100 →
          boxHeight (removeWatermarkBox w h q) ≤ boxHeight (removeWatermarkBox w h p))
      ∧ boxHeight (removeWatermarkBox w h 0) = h)
    ∧ boxHeight (removeWatermarkBox 1200 1000 15) = 850 := by
  constructor
  · intro w h p _
    refine ⟨by simp [boxHeight, removeWatermarkBox],
      by simp [boxWidth, removeWatermarkBox], rfl, ?_, ?_⟩
    · intro q hpq _
      simp only [boxHeight, removeWatermarkBox, Nat.sub_zero]
      have hsub : 100 - q ≤ 100 - p := Nat.sub_le_sub_left hpq 100
      exact Nat.div_le_div_right (Nat.mul_le_mul_left h hsub)
    · simp [boxHeight, removeWatermarkBox,
        Nat.mul_div_cancel h (by norm_num : (0 : Nat) < 100)]
  · decide

/-- Witness for C5 at H = 1000, p = 15. -/
theorem c5_crop_geometry_witness :
    15 ≤ 100
    ∧ boxHeight (removeWatermarkBox 1200 1000 15) = 1000 * (100 - 15) / 100 :=
  ⟨by decide, (c5_crop_geometry.1 1200 1000 15 (by decide)).1⟩

/-- C3: reconciliation never removes a store member on any control path;
on the fault-free first pass the resulting store is exactly the union of
the store and the backup; and the backup rewrite's union-first merge
(without a remove hint) keeps every store member and every file member. -/
theorem c3_reconcile_union_only :
    (∀ (attempted smembersFail saddFail : Bool) (S : List String)
       (B : List Int), ∀ x ∈ S,
       x ∈ reconcileStore attempted smembersFail saddFail S B)
    ∧ (∀ (S : List String) (B : List Int), ∀ x : String,
         x ∈ reconcileStore false false false S B
           ↔ x ∈ S ∨ ∃ b ∈ B, strOfInt b = x)
    ∧ (∀ (F S : Finset Int) (a : Option Int),
         S ⊆ writeBackup F S a none ∧ F ⊆ writeBackup F S a none) := by
  refine ⟨?_, ?_, ?_⟩
  · intro att smf saf S B x hx
    simp only [reconcileStore]
    split_ifs <;> simp [List.mem_append, hx]
  · intro S B x
    by_cases hS : S.isEmpty
    · have hS' : S = [] := List.isEmpty_iff.mp hS
      subst hS'
      by_cases hB : B.isEmpty
      · have hB' : B = [] := List.isEmpty_iff.mp hB
        subst hB'
        simp [reconcileStore]
      · simp [reconcileStore, hB, List.mem_map]
    · by_cases hm : ((B.map strOfInt).filter (fun s => decide (s ∉ S))).isEmpty
      · have hm2 := List.isEmpty_iff.mp hm
        rw [List.filter_eq_nil_iff] at hm2
        simp only [List.mem_map, decide_eq_true_eq, not_not] at hm2
        simp only [reconcileStore, Bool.false_eq_true, if_false, hS,
          Bool.not_false, if_true, hm]
        constructor
        · exact Or.inl
        · rintro (hx | ⟨b, hb, rfl⟩)
          · exact hx
          · exact hm2 (strOfInt b) ⟨b, hb, rfl⟩
      · simp only [reconcileStore, Bool.false_eq_true, if_false, hS,
          Bool.not_false, if_true, hm]
        simp only [List.mem_append, List.mem_filter, List.mem_map,
          decide_eq_true_eq]
        constructor
        · rintro (hx | ⟨⟨b, hb, rfl⟩, _⟩)
          · exact Or.inl hx
          · exact Or.inr ⟨b, hb, rfl⟩
        · rintro (hx | ⟨b, hb, rfl⟩)
          · exact Or.inl hx
          · by_cases hxs : strOfInt b ∈ S
            · exact Or.inl hxs
            · exact Or.inr ⟨⟨b, hb, rfl⟩, hxs⟩
  · intro F S a
    cases a with
    | none =>
      constructor
      · exact fun x hx => by
          simp only [writeBackup]
          exact Finset.mem_union_right _ hx
      · exact fun x hx => by
          simp only [writeBackup]
          exact Finset.mem_union_left _ hx
    | some i =>
      constructor
      · exact fun x hx => by
          simp only [writeBackup]
          exact Finset.mem_insert_of_mem (Finset.mem_union_right _ hx)
      · exact fun x hx => by
          simp only [writeBackup]
          exact Finset.mem_insert_of_mem (Finset.mem_union_left _ hx)

/-- Witness for C3: reconciliation keeps the store member "5". -/
theorem c3_reconcile_union_only_witness :
    ("5" : String) ∈ ["5"]
    ∧ ("5" : String) ∈ reconcileStore false false false ["5"] [7] :=
  ⟨by decide, c3_reconcile_union_only.1 false false false ["5"] [7] "5" (by decide)⟩

/- ------------------------------------------------------------------ -/
/- Lemmas about the extraction retry loop                              -/
/- ------------------------------------------------------------------ -/

theorem scrapeGo_stop {retries backoff : Nat} {f : Nat → ScrapeOut}
    {fuel a : Nat} (h : ¬ a ≤ retries + 1) :
    scrapeGo retries backoff f fuel a = { imgs := [], attempts := 0, sleeps := [] } := by
  cases fuel with
  | zero => rfl
  | succ n => simp [scrapeGo, h]

theorem scrapeGo_hit {retries backoff : Nat} {f : Nat → ScrapeOut}
    {fuel a : Nat} {imgs : List String} (h : a ≤ retries + 1)
    (hfa : f a = ScrapeOut.ret imgs) (he : imgs.isEmpty = false) :
    scrapeGo retries backoff f (fuel + 1) a
      = { imgs := imgs, attempts := 1, sleeps := [] } := by
  simp [scrapeGo, h, hfa, he]

theorem scrapeGo_miss {retries backoff : Nat} {f : Nat → ScrapeOut}
    {fuel a : Nat} (h : a ≤ retries + 1) (hf : scrapeFailed (f a) = true) :
    scrapeGo retries backoff f (fuel + 1) a
      = { imgs := (scrapeGo retries backoff f fuel (a + 1)).imgs,
          attempts := (scrapeGo retries backoff f fuel (a + 1)).attempts + 1,
          sleeps := (if a ≤ retries then [backoff * a] else [])
            ++ (scrapeGo retries backoff f fuel (a + 1)).sleeps } := by
  cases hfa : f a with
  | raise => simp [scrapeGo, h, hfa]
  | ret imgs =>
    have he : imgs.isEmpty = true := by
      simpa [scrapeFailed, hfa] using hf
    simp [scrapeGo, h, hfa, he]

theorem scrapeFailed_cases {o : ScrapeOut} (h : ¬ scrapeFailed o = true) :
    ∃ imgs, o = ScrapeOut.ret imgs ∧ imgs.isEmpty = false := by
  cases o with
  | raise => simp [scrapeFailed] at h
  | ret imgs =>
    refine ⟨imgs, rfl, ?_⟩
    simpa [scrapeFailed] using h

theorem scrapeGo_attempts_le (retries backoff : Nat) (f : Nat → ScrapeOut) :
    ∀ fuel a, (scrapeGo retries backoff f fuel a).attempts ≤ fuel := by
  intro fuel
  induction fuel with
  | zero => intro a; simp [scrapeGo]
  | succ n ih =>
    intro a
    by_cases h : a ≤ retries + 1
    · by_cases hf : scrapeFailed (f a) = true
      · rw [scrapeGo_miss h hf]
        have := ih (a + 1)
        simpa using this
      · obtain ⟨imgs, hfa, he⟩ := scrapeFailed_cases hf
        rw [scrapeGo_hit h hfa he]
        simp
    · rw [scrapeGo_stop h]
      simp

theorem scrapeGo_attempts_pos (retries backoff : Nat) (f : Nat → ScrapeOut)
    (fuel a : Nat) (hfuel : 1 ≤ fuel) (h : a ≤ retries + 1) :
    1 ≤ (scrapeGo retries backoff f fuel a).attempts := by
  cases fuel with
  | zero => omega
  | succ n =>
    by_cases hf : scrapeFailed (f a) = true
    · rw [scrapeGo_miss h hf]
      simp
    · obtain ⟨imgs, hfa, he⟩ := scrapeFailed_cases hf
      rw [scrapeGo_hit h hfa he]

theorem scrapeGo_sleeps (retries backoff : Nat) (f : Nat → ScrapeOut) :
    ∀ fuel a, a + fuel = retries + 2 →
      (scrapeGo retries backoff f fuel a).sleeps
        = (List.range' a ((scrapeGo retries backoff f fuel a).attempts - 1)).map
            (fun i => backoff * i) := by
  intro fuel
  induction fuel with
  | zero =>
    intro a _
    simp [scrapeGo]
  | succ n ih =>
    intro a hfa2
    have h : a ≤ retries + 1 := by omega
    by_cases hf : scrapeFailed (f a) = true
    · rw [scrapeGo_miss h hf]
      by_cases ha : a ≤ retries
      · have hn : 1 ≤ n := by omega
        have hpos := scrapeGo_attempts_pos retries backoff f n (a + 1) hn (by omega)
        have hrec := ih (a + 1) (by omega)
        set r := scrapeGo retries backoff f n (a + 1) with hr
        simp only [ha, if_true]
        obtain ⟨m, hm⟩ : ∃ m, r.attempts = m + 1 := ⟨r.attempts - 1, by omega⟩
        rw [hrec, hm]
        simp [List.range'_succ]
      · have ha' : a = retries + 1 := by omega
        have hn0 : n = 0 := by omega
        subst hn0
        simp only [ha, if_false]
        simp [scrapeGo]
    · obtain ⟨imgs, hfa, he⟩ := scrapeFailed_cases hf
      rw [scrapeGo_hit h hfa he]
      simp

theorem scrapeGo_first (retries backoff : Nat) (f : Nat → ScrapeOut) :
    ∀ k fuel a imgs, a + fuel = retries + 2 → a + k ≤ retries + 1 →
      (∀ i, a ≤ i → i < a + k → scrapeFailed (f i) = true) →
      f (a + k) = ScrapeOut.ret imgs → imgs.isEmpty = false →
      (scrapeGo retries backoff f fuel a).imgs = imgs
      ∧ (scrapeGo retries backoff f fuel a).attempts = k + 1 := by
  intro k
  induction k with
  | zero =>
    intro fuel a imgs hfa2 hk _ hsucc he
    have h : a ≤ retries + 1 := by omega
    cases fuel with
    | zero => omega
    | succ n =>
      rw [scrapeGo_hit h (by simpa using hsucc) he]
      exact ⟨rfl, rfl⟩
  | succ k ih =>
    intro fuel a imgs hfa2 hk hfail hsucc he
    have h : a ≤ retries + 1 := by omega
    cases fuel with
    | zero => omega
    | succ n =>
      have hfa : scrapeFailed (f a) = true := hfail a (Nat.le_refl a) (by omega)
      rw [scrapeGo_miss h hfa]
      have heq : a + 1 + k = a + (k + 1) := by omega
      have := ih n (a + 1) imgs (by omega) (by omega)
        (fun i h1 h2 => hfail i (by omega) (by omega))
        (by rw [heq]; exact hsucc) he
      exact ⟨this.1, by rw [this.2]⟩

theorem scrapeGo_empty_all_failed (retries backoff : Nat) (f : Nat → ScrapeOut) :
    ∀ fuel a, a + fuel = retries + 2 →
      (scrapeGo retries backoff f fuel a).imgs = [] →
      ∀ i, a ≤ i → i ≤ retries + 1 → scrapeFailed (f i) = true := by
  intro fuel
  induction fuel with
  | zero =>
    intro a hfa2 _ i h1 h2
    omega
  | succ n ih =>
    intro a hfa2 hres i h1 h2
    have h : a ≤ retries + 1 := by omega
    by_cases hf : scrapeFailed (f a) = true
    · rw [scrapeGo_miss h hf] at hres
      rcases Nat.eq_or_lt_of_le h1 with rfl | hlt
      · exact hf
      · exact ih (a + 1) (by omega) hres i (by omega) h2
    · obtain ⟨imgs, hfa, he⟩ := scrapeFailed_cases hf
      rw [scrapeGo_hit h hfa he] at hres
      simp only at hres
      rw [hres] at he
      simp at he

/-- C7: the extraction call makes at most retries + 1 attempts, sleeps
linearly (backoff * attempt) between attempts, returns the image list of
the first attempt that yields a non-empty list (consuming exactly that
many attempts), and signals failure — the empty list the caller treats as
extraction failure — only when every attempt in the budget raised or came
back empty. -/
theorem c7_extraction_retry_contract :
    ∀ (retries backoff : Nat) (f : Nat → ScrapeOut),
      (browserScrapeWithRetry retries backoff f).attempts ≤ retries + 1
      ∧ (browserScrapeWithRetry retries backoff f).sleeps
          = (List.range' 1 ((browserScrapeWithRetry retries backoff f).attempts - 1)).map
              (fun i => backoff * i)
      ∧ (∀ k imgs, 1 ≤ k → k ≤ retries + 1 →
          (∀ i, 1 ≤ i → i < k → scrapeFailed (f i) = true) →
          f k = ScrapeOut.ret imgs → imgs.isEmpty = false →
          (browserScrapeWithRetry retries backoff f).imgs = imgs
          ∧ (browserScrapeWithRetry retries backoff f).attempts = k)
      ∧ ((browserScrapeWithRetry retries backoff f).imgs = [] →
          ∀ i, 1 ≤ i → i ≤ retries + 1 → scrapeFailed (f i) = true) := by
  intro retries backoff f
  refine ⟨scrapeGo_attempts_le retries backoff f (retries + 1) 1,
    scrapeGo_sleeps retries backoff f (retries + 1) 1 (by omega), ?_, ?_⟩
  · intro k imgs h1 h2 hfail hsucc he
    have heq : 1 + (k - 1) = k := by omega
    have hmain := scrapeGo_first retries backoff f (k - 1) (retries + 1) 1 imgs
      (by omega) (by omega) (fun i hi1 hi2 => hfail i hi1 (by omega))
      (by rw [heq]; exact hsucc) he
    have h2' : (browserScrapeWithRetry retries backoff f).attempts = k - 1 + 1 :=
      hmain.2
    exact ⟨hmain.1, by omega⟩
  · intro hres i h1 h2
    exact scrapeGo_empty_all_failed retries backoff f (retries + 1) 1
      (by omega) hres i h1 h2

/-- Witness for C7: one raising attempt, then recovery on attempt 2 with
retries = 2, backoff = 2. -/
theorem c7_extraction_retry_contract_witness :
    scrapeFailed (scrapeOnceThenOk 1) = true
    ∧ (browserScrapeWithRetry 2 2 scrapeOnceThenOk).imgs = ["u"]
    ∧ (browserScrapeWithRetry 2 2 scrapeOnceThenOk).attempts = 2 := by
  have h := (c7_extraction_retry_contract 2 2 scrapeOnceThenOk).2.2.1 2 ["u"]
    (by decide) (by decide)
    (fun i hi1 hi2 => by
      have hi : i = 1 := by omega
      rw [hi]
      decide)
    rfl (by decide)
  exact ⟨by decide, h.1, h.2⟩

/- ------------------------------------------------------------------ -/
/- Lemmas about the image fetch retry loop                             -/
/- ------------------------------------------------------------------ -/

theorem fetchGo_stop {retries backoff : Nat} {f : Nat → FetchOut}
    {fuel a : Nat} (h : ¬ a ≤ retries + 1) :
    fetchGo retries backoff f fuel a = { body := [], attempts := 0, sleeps := [] } := by
  cases fuel with
  | zero => rfl
  | succ n => simp [fetchGo, h]

theorem fetchGo_hit {retries backoff : Nat} {f : Nat → FetchOut}
    {fuel a : Nat} {b : List Nat} (h : a ≤ retries + 1)
    (hfa : f a = FetchOut.ok b) :
    fetchGo retries backoff f (fuel + 1) a
      = { body := b, attempts := 1, sleeps := [] } := by
  simp [fetchGo, h, hfa]

theorem fetchGo_miss {retries backoff : Nat} {f : Nat → FetchOut}
    {fuel a : Nat} (h : a ≤ retries + 1) (hf : fetchFailed (f a) = true) :
    fetchGo retries backoff f (fuel + 1) a
      = { body := (fetchGo retries backoff f fuel (a + 1)).body,
          attempts := (fetchGo retries backoff f fuel (a + 1)).attempts + 1,
          sleeps := (if a ≤ retries then [backoff * a] else [])
            ++ (fetchGo retries backoff f fuel (a + 1)).sleeps } := by
  cases hfa : f a with
  | ok b => simp [fetchFailed, hfa] at hf
  | non200 => simp [fetchGo, h, hfa]
  | exn => simp [fetchGo, h, hfa]

theorem fetchFailed_cases {o : FetchOut} (h : ¬ fetchFailed o = true) :
    ∃ b, o = FetchOut.ok b := by
  cases o with
  | ok b => exact ⟨b, rfl⟩
  | non200 => simp [fetchFailed] at h
  | exn => simp [fetchFailed] at h

theorem fetchGo_first (retries backoff : Nat) (f : Nat → FetchOut) :
    ∀ k fuel a b, a + fuel = retries + 2 → a + k ≤ retries + 1 →
      (∀ i, a ≤ i → i < a + k → fetchFailed (f i) = true) →
      f (a + k) = FetchOut.ok b →
      (fetchGo retries backoff f fuel a).body = b := by
  intro k
  induction k with
  | zero =>
    intro fuel a b hfa2 hk _ hsucc
    have h : a ≤ retries + 1 := by omega
    cases fuel with
    | zero => omega
    | succ n =>
      rw [fetchGo_hit h (by simpa using hsucc)]
  | succ k ih =>
    intro fuel a b hfa2 hk hfail hsucc
    have h : a ≤ retries + 1 := by omega
    cases fuel with
    | zero => omega
    | succ n =>
      have hfa : fetchFailed (f a) = true := hfail a (Nat.le_refl a) (by omega)
      rw [fetchGo_miss h hfa]
      have heq : a + 1 + k = a + (k + 1) := by omega
      exact ih n (a + 1) b (by omega) (by omega)
        (fun i h1 h2 => hfail i (by omega) (by omega))
        (by rw [heq]; exact hsucc)

theorem fetchGo_all_failed (retries backoff : Nat) (f : Nat → FetchOut) :
    ∀ fuel a, a + fuel = retries + 2 →
      (∀ i, a ≤ i → i ≤ retries + 1 → fetchFailed (f i) = true) →
      (fetchGo retries backoff f fuel a).body = [] := by
  intro fuel
  induction fuel with
  | zero =>
    intro a _ _
    simp [fetchGo]
  | succ n ih =>
    intro a hfa2 hfail
    have h : a ≤ retries + 1 := by omega
    have hfa : fetchFailed (f a) = true := hfail a (Nat.le_refl a) h
    rw [fetchGo_miss h hfa]
    exact ih (a + 1) (by omega) (fun i h1 h2 => hfail i (by omega) h2)

theorem fetchGo_empty_all_failed (retries backoff : Nat) (f : Nat → FetchOut)
    (hgood : ∀ a b, 1 ≤ a → a ≤ retries + 1 → f a = FetchOut.ok b → b ≠ []) :
    ∀ fuel a, 1 ≤ a → a + fuel = retries + 2 →
      (fetchGo retries backoff f fuel a).body = [] →
      ∀ i, a ≤ i → i ≤ retries + 1 → fetchFailed (f i) = true := by
  intro fuel
  induction fuel with
  | zero =>
    intro a _ hfa2 _ i h1 h2
    omega
  | succ n ih =>
    intro a ha1 hfa2 hres i h1 h2
    have h : a ≤ retries + 1 := by omega
    by_cases hf : fetchFailed (f a) = true
    · rw [fetchGo_miss h hf] at hres
      rcases Nat.eq_or_lt_of_le h1 with rfl | hlt
      · exact hf
      · exact ih (a + 1) (by omega) (by omega) hres i (by omega) h2
    · obtain ⟨b, hfa⟩ := fetchFailed_cases hf
      rw [fetchGo_hit h hfa] at hres
      simp only at hres
      exact absurd hres (hgood a b ha1 h hfa)

/-- C8, counterexample to the claim as stated: with every attempt
answering HTTP 200 with an empty body, _fetch_image returns empty bytes
after the very first attempt — an attempt succeeded, the budget (3
attempts) was not exhausted, and the returned byte string is empty. -/
theorem c8_counterexample :
    fetchEmptyBody 1 = FetchOut.ok []
    ∧ (fetchImage 2 1 fetchEmptyBody).body = []
    ∧ (fetchImage 2 1 fetchEmptyBody).attempts = 1
    ∧ (fetchImage 2 1 fetchEmptyBody).attempts < 2 + 1 :=
  ⟨rfl, rfl, rfl, by decide⟩

/-- C8 amended: _fetch_image returns the body of the first 200 response;
hence, provided every 200 body within the budget is non-empty, it returns
empty bytes exactly when all IMAGE_FETCH_RETRIES + 1 attempts failed
(non-200 or raised). The unamended claim fails when a 200 response
carries an empty body. -/
theorem c8_fetch_empty_only_after_exhaustion :
    ∀ (retries backoff : Nat) (f : Nat → FetchOut),
      ((∀ a b, 1 ≤ a → a ≤ retries + 1 → f a = FetchOut.ok b → b ≠ []) →
        ((fetchImage retries backoff f).body = []
          ↔ ∀ a, 1 ≤ a → a ≤ retries + 1 → fetchFailed (f a) = true))
      ∧ (∀ k b, 1 ≤ k → k ≤ retries + 1 →
          (∀ i, 1 ≤ i → i < k → fetchFailed (f i) = true) →
          f k = FetchOut.ok b → (fetchImage retries backoff f).body = b) := by
  intro retries backoff f
  constructor
  · intro hgood
    constructor
    · intro hres i h1 h2
      exact fetchGo_empty_all_failed retries backoff f hgood (retries + 1) 1
        (Nat.le_refl 1) (by omega) hres i h1 h2
    · intro hfail
      exact fetchGo_all_failed retries backoff f (retries + 1) 1 (by omega)
        (fun i h1 h2 => hfail i h1 h2)
  · intro k b h1 h2 hfail hsucc
    have heq : 1 + (k - 1) = k := by omega
    exact fetchGo_first retries backoff f (k - 1) (retries + 1) 1 b
      (by omega) (by omega) (fun i hi1 hi2 => hfail i hi1 (by omega))
      (by rw [heq]; exact hsucc)

/-- Witness for the amended C8: an error then a 200 with one byte returns
that byte; a run of pure errors returns empty bytes. -/
theorem c8_fetch_empty_only_after_exhaustion_witness :
    (fetchImage 2 1 fetchOnceThenOk).body = [7]
    ∧ (fetchImage 2 1 fetchAllFail).body = [] := by
  constructor
  · exact (c8_fetch_empty_only_after_exhaustion 2 1 fetchOnceThenOk).2 2 [7]
      (by decide) (by decide)
      (fun i hi1 hi2 => by
        have hi : i = 1 := by omega
        rw [hi]
        decide)
      rfl
  · exact ((c8_fetch_empty_only_after_exhaustion 2 1 fetchAllFail).1
      (fun a b _ _ hab => absurd hab (by simp [fetchAllFail]))).mpr
      (fun a _ _ => rfl)

/- ------------------------------------------------------------------ -/
/- Lemmas about the batch send loop                                    -/
/- ------------------------------------------------------------------ -/

theorem sendBatchGo_stop {α : Type} {media : α} {retries : Nat}
    {f : Nat → SendOut} {fuel attempt : Nat} {lastExc : Bool}
    (h : ¬ attempt < retries) :
    sendBatchGo media retries f fuel attempt lastExc
      = { delivered := false, hardFailed := lastExc, sends := 0,
          sleeps := [], sent := [] } := by
  cases fuel with
  | zero => rfl
  | succ n => simp [sendBatchGo, h]

theorem sendBatchGo_success {α : Type} {media : α} {retries : Nat}
    {f : Nat → SendOut} {fuel attempt : Nat} {lastExc : Bool}
    (h : attempt < retries) (hfa : f attempt = SendOut.success) :
    sendBatchGo media retries f (fuel + 1) attempt lastExc
      = { delivered := true, hardFailed := false, sends := 1,
          sleeps := [], sent := [media] } := by
  simp [sendBatchGo, h, hfa]

theorem sendBatchGo_rl {α : Type} {media : α} {retries : Nat}
    {f : Nat → SendOut} {fuel attempt : Nat} {lastExc : Bool} {d : Nat}
    (h : attempt < retries) (hfa : f attempt = SendOut.rateLimited d) :
    sendBatchGo media retries f (fuel + 1) attempt lastExc
      = { delivered := (sendBatchGo media retries f fuel (attempt + 1) lastExc).delivered,
          hardFailed := (sendBatchGo media retries f fuel (attempt + 1) lastExc).hardFailed,
          sends := (sendBatchGo media retries f fuel (attempt + 1) lastExc).sends + 1,
          sleeps := (d + 1) :: (sendBatchGo media retries f fuel (attempt + 1) lastExc).sleeps,
          sent := media :: (sendBatchGo media retries f fuel (attempt + 1) lastExc).sent } := by
  simp [sendBatchGo, h, hfa]

theorem sendBatchGo_failure {α : Type} {media : α} {retries : Nat}
    {f : Nat → SendOut} {fuel attempt : Nat} {lastExc : Bool}
    (h : attempt < retries) (hfa : f attempt = SendOut.failure) :
    sendBatchGo media retries f (fuel + 1) attempt lastExc
      = { delivered := (sendBatchGo media retries f fuel (attempt + 1) true).delivered,
          hardFailed := (sendBatchGo media retries f fuel (attempt + 1) true).hardFailed,
          sends := (sendBatchGo media retries f fuel (attempt + 1) true).sends + 1,
          sleeps := 3 :: (sendBatchGo media retries f fuel (attempt + 1) true).sleeps,
          sent := media :: (sendBatchGo media retries f fuel (attempt + 1) true).sent } := by
  simp [sendBatchGo, h, hfa]

theorem sendBatchGo_scenario {α : Type} (media : α) (retries : Nat)
    (f : Nat → SendOut) :
    ∀ k fuel attempt lastExc, attempt + fuel = retries →
      attempt + k < retries →
      (∀ i, i < k → ∃ d, f (attempt + i) = SendOut.rateLimited d) →
      f (attempt + k) = SendOut.success →
      sendBatchGo media retries f fuel attempt lastExc
        = { delivered := true, hardFailed := false, sends := k + 1,
            sleeps := (List.range' attempt k).map (fun i => rlDelay (f i) + 1),
            sent := List.replicate (k + 1) media } := by
  intro k
  induction k with
  | zero =>
    intro fuel attempt lastExc hfr hk _ hsucc
    cases fuel with
    | zero => omega
    | succ n =>
      rw [sendBatchGo_success (by omega) (by simpa using hsucc)]
      simp
  | succ k ih =>
    intro fuel attempt lastExc hfr hk hrl hsucc
    obtain ⟨d, hd⟩ := hrl 0 (Nat.succ_pos k)
    rw [Nat.add_zero] at hd
    cases fuel with
    | zero => omega
    | succ n =>
      rw [sendBatchGo_rl (by omega) hd]
      have heq : attempt + 1 + k = attempt + (k + 1) := by omega
      rw [ih n (attempt + 1) lastExc (by omega) (by omega)
        (fun i hi => by
          have := hrl (i + 1) (by omega)
          rwa [show attempt + (i + 1) = attempt + 1 + i by omega] at this)
        (by rw [heq]; exact hsucc)]
      have hdel : rlDelay (f attempt) = d := by rw [hd]; rfl
      simp [List.range'_succ, List.replicate_succ, hdel]

theorem sendBatchGo_no_failure_soft {α : Type} (media : α) (retries : Nat)
    (f : Nat → SendOut) (hnf : ∀ i, f i ≠ SendOut.failure) :
    ∀ fuel attempt,
      (sendBatchGo media retries f fuel attempt false).hardFailed = false := by
  intro fuel
  induction fuel with
  | zero => intro attempt; rfl
  | succ n ih =>
    intro attempt
    by_cases h : attempt < retries
    · cases hfa : f attempt with
      | success => rw [sendBatchGo_success h hfa]
      | rateLimited d =>
        rw [sendBatchGo_rl h hfa]
        exact ih (attempt + 1)
      | failure => exact absurd hfa (hnf attempt)
    · rw [sendBatchGo_stop h]

theorem sendBatchGo_all_rl {α : Type} (media : α) (retries : Nat)
    (f : Nat → SendOut) :
    ∀ fuel attempt lastExc, attempt + fuel = retries →
      (∀ i, attempt ≤ i → i < retries → ∃ d, f i = SendOut.rateLimited d) →
      sendBatchGo media retries f fuel attempt lastExc
        = { delivered := false, hardFailed := lastExc, sends := fuel,
            sleeps := (List.range' attempt fuel).map (fun i => rlDelay (f i) + 1),
            sent := List.replicate fuel media } := by
  intro fuel
  induction fuel with
  | zero =>
    intro attempt lastExc _ _
    rfl
  | succ n ih =>
    intro attempt lastExc hfr hrl
    have hlt : attempt < retries := by omega
    obtain ⟨d, hd⟩ := hrl attempt (Nat.le_refl attempt) hlt
    rw [sendBatchGo_rl hlt hd]
    rw [ih (attempt + 1) lastExc (by omega) (fun i h1 h2 => hrl i (by omega) h2)]
    have hdel : rlDelay (f attempt) = d := by rw [hd]; rfl
    simp [List.range'_succ, List.replicate_succ, hdel]

/-- C9, counterexample to the claim as stated: with the source's budget
of 5 and every attempt answering a rate-limit signal with delay 3, the
loop performs 5 sends and 5 sleeps of 4 seconds — so the fifth signal is
slept on but never followed by a resend of the batch, the batch is
dropped undelivered, and the five rate-limit signals consumed the entire
generic 5-attempt budget (last_exc stays unset, so no fallback runs
either). -/
theorem c9_counterexample :
    sendAllRl 4 = SendOut.rateLimited 3
    ∧ (sendBatch 77 5 sendAllRl).sends = 5
    ∧ (sendBatch 77 5 sendAllRl).sleeps = [4, 4, 4, 4, 4]
    ∧ (sendBatch 77 5 sendAllRl).delivered = false
    ∧ (sendBatch 77 5 sendAllRl).hardFailed = false :=
  ⟨rfl, rfl, rfl, rfl, rfl⟩

/-- C9 amended: a rate-limit signal makes the manager sleep d + 1
seconds, and the identical batch is resent exactly when budget remains —
rate-limit retries do count against the generic 5-attempt budget (a run
of nothing but rate limits performs one send per budgeted attempt and
then drops the batch undelivered, the final signal slept on but not
resent) — but they are never recorded as hard failures: last_exc stays
unset, so rate limits alone never trigger the per-photo fallback. -/
theorem c9_rate_limit_retry_amended :
    (∀ (α : Type) (media : α) (retries : Nat) (f : Nat → SendOut) (k : Nat),
      k < retries →
      (∀ i, i < k → ∃ d, f i = SendOut.rateLimited d) →
      f k = SendOut.success →
      (sendBatch media retries f).delivered = true
      ∧ (sendBatch media retries f).hardFailed = false
      ∧ (sendBatch media retries f).sends = k + 1
      ∧ (sendBatch media retries f).sent = List.replicate (k + 1) media
      ∧ (sendBatch media retries f).sleeps
          = (List.range' 0 k).map (fun i => rlDelay (f i) + 1))
    ∧ (∀ (α : Type) (media : α) (retries : Nat) (f : Nat → SendOut),
        (∀ i, i < retries → ∃ d, f i = SendOut.rateLimited d) →
        (sendBatch media retries f).delivered = false
        ∧ (sendBatch media retries f).hardFailed = false
        ∧ (sendBatch media retries f).sends = retries
        ∧ (sendBatch media retries f).sent = List.replicate retries media
        ∧ (sendBatch media retries f).sleeps
            = (List.range' 0 retries).map (fun i => rlDelay (f i) + 1))
    ∧ (∀ (α : Type) (media : α) (retries : Nat) (f : Nat → SendOut),
        (∀ i, f i ≠ SendOut.failure) →
        (sendBatch media retries f).hardFailed = false) := by
  refine ⟨?_, ?_, ?_⟩
  · intro α media retries f k hk hrl hsucc
    have h := sendBatchGo_scenario media retries f k retries 0 false (by omega)
      (by omega) (fun i hi => by simpa using hrl i hi) (by simpa using hsucc)
    rw [sendBatch, h]
    exact ⟨rfl, rfl, rfl, rfl, rfl⟩
  · intro α media retries f hrl
    have h := sendBatchGo_all_rl media retries f retries 0 false (by omega)
      (fun i _ h2 => hrl i h2)
    rw [sendBatch, h]
    exact ⟨rfl, rfl, rfl, rfl, rfl⟩
  · intro α media retries f hnf
    exact sendBatchGo_no_failure_soft media retries f hnf retries 0

/-- Witness for the amended C9: one rate-limit signal then success
delivers with no hard failure; a run of nothing but rate limits consumes
the whole budget of 5 and drops the batch. -/
theorem c9_rate_limit_retry_amended_witness :
    (sendBatch 77 5 sendRlThenOk).delivered = true
    ∧ (sendBatch 77 5 sendRlThenOk).hardFailed = false
    ∧ (sendBatch 77 5 sendRlThenOk).sends = 2
    ∧ (sendBatch 88 5 sendAllRl).sends = 5
    ∧ (sendBatch 88 5 sendAllRl).delivered = false := by
  have h1 := c9_rate_limit_retry_amended.1 Nat 77 5 sendRlThenOk 1 (by decide)
    (fun i hi => by
      have hi0 : i = 0 := by omega
      rw [hi0]
      exact ⟨3, rfl⟩)
    rfl
  have h2 := c9_rate_limit_retry_amended.2.1 Nat 88 5 sendAllRl
    (fun i _ => ⟨3, rfl⟩)
  exact ⟨h1.1, h1.2.1, h1.2.2.1, h2.2.2.1, h2.1⟩

/- ------------------------------------------------------------------ -/
/- Lemmas about prefix and substring tests                             -/
/- ------------------------------------------------------------------ -/

theorem lpre_append : ∀ (p l t : List Char), lpre p l = true → lpre p (l ++ t) = true := by
  intro p
  induction p with
  | nil => intro l t _; rfl
  | cons q ps ih =>
    intro l t h
    cases l with
    | nil => simp [lpre] at h
    | cons c cs =>
      rw [List.cons_append]
      simp only [lpre] at h ⊢
      by_cases hqc : q = c
      · simp only [hqc, if_true] at h ⊢
        exact ih cs t h
      · simp [hqc] at h

theorem lpre_exists : ∀ (p l : List Char), lpre p l = true → ∃ t, l = p ++ t := by
  intro p
  induction p with
  | nil => intro l _; exact ⟨l, rfl⟩
  | cons q ps ih =>
    intro l h
    cases l with
    | nil => simp [lpre] at h
    | cons c cs =>
      simp only [lpre] at h
      by_cases hqc : q = c
      · subst hqc
        simp only [if_true] at h
        obtain ⟨t, ht⟩ := ih cs h
        exact ⟨t, by rw [ht]; rfl⟩
      · simp [hqc] at h

theorem hasSub_nil_pat : ∀ l : List Char, hasSub [] l = true := by
  intro l
  cases l with
  | nil => rfl
  | cons c t => simp [hasSub, lpre]

theorem hasSub_of_lpre {pat l : List Char} (h : lpre pat l = true) :
    hasSub pat l = true := by
  cases l with
  | nil =>
    cases pat with
    | nil => rfl
    | cons q ps => simp [lpre] at h
  | cons c t => simp [hasSub, h]

theorem hasSub_append_right (pat w t : List Char) (h : hasSub pat t = true) :
    hasSub pat (w ++ t) = true := by
  induction w with
  | nil => exact h
  | cons c w' ih =>
    rw [List.cons_append]
    simp [hasSub, ih]

theorem hasSub_append_left (pat w t : List Char) (h : hasSub pat w = true) :
    hasSub pat (w ++ t) = true := by
  induction w with
  | nil =>
    have hp : pat = [] := by
      cases pat with
      | nil => rfl
      | cons q ps => simp [hasSub] at h
    rw [hp]
    exact hasSub_nil_pat t
  | cons c w' ih =>
    simp only [hasSub, Bool.or_eq_true] at h
    rw [List.cons_append]
    rcases h with h | h
    · exact hasSub_of_lpre (lpre_append pat (c :: w') t h)
    · simp [hasSub, ih h]

theorem hasSub_prefix_false (pat w t : List Char)
    (h : hasSub pat (w ++ t) = false) : hasSub pat w = false := by
  by_contra hc
  have : hasSub pat w = true := by
    cases hw : hasSub pat w
    · exact absurd hw hc
    · rfl
  rw [hasSub_append_left pat w t this] at h
  cases h

/- ------------------------------------------------------------------ -/
/- Lemmas about the digit-span scanner and the size-pattern matcher    -/
/- ------------------------------------------------------------------ -/

theorem spanDigits_cons_digit (c : Char) (t : List Char) (h : c.isDigit = true) :
    spanDigits (c :: t) = (c :: (spanDigits t).1, (spanDigits t).2) := by
  simp [spanDigits, h]

theorem spanDigits_cons_not (c : Char) (t : List Char) (h : c.isDigit = false) :
    spanDigits (c :: t) = ([], c :: t) := by
  simp [spanDigits, h]

theorem spanDigits_of_head_not (l : List Char)
    (h : ∀ c, l.head? = some c → c.isDigit = false) :
    spanDigits l = ([], l) := by
  cases l with
  | nil => rfl
  | cons c t => exact spanDigits_cons_not c t (h c rfl)

theorem spanDigits_append : ∀ l : List Char, (spanDigits l).1 ++ (spanDigits l).2 = l := by
  intro l
  induction l with
  | nil => rfl
  | cons c t ih =>
    by_cases h : c.isDigit = true
    · rw [spanDigits_cons_digit c t h]
      simp only [List.cons_append]
      rw [ih]
    · have h' : c.isDigit = false := by
        cases hv : c.isDigit
        · rfl
        · exact absurd hv h
      rw [spanDigits_cons_not c t h']
      rfl

theorem spanDigits_snd_head : ∀ (l : List Char) (c : Char),
    ((spanDigits l).2).head? = some c → c.isDigit = false := by
  intro l
  induction l with
  | nil => intro c h; cases h
  | cons x t ih =>
    intro c h
    by_cases hx : x.isDigit = true
    · rw [spanDigits_cons_digit x t hx] at h
      exact ih c h
    · have hx' : x.isDigit = false := by
        cases hv : x.isDigit
        · rfl
        · exact absurd hv hx
      rw [spanDigits_cons_not x t hx'] at h
      simp only [List.head?_cons] at h
      injection h with h
      rw [← h]
      exact hx'

theorem parseTail_nonempty_fst (l : List Char)
    (h : ((spanDigits l).1.isEmpty) = false) :
    parseTail l
      = (match (spanDigits l).2 with
         | c :: r2 =>
           if c = 'x' then
             if (spanDigits r2).1.isEmpty then none else some (spanDigits r2).2
           else none
         | [] => none) := by
  simp [parseTail, h]

theorem parseTail_empty_fst (l : List Char)
    (h : ((spanDigits l).1.isEmpty) = true) : parseTail l = none := by
  simp [parseTail, h]

theorem parseTail_some_shape (rest r : List Char) (h : parseTail rest = some r) :
    (∀ c, r.head? = some c → c.isDigit = false) ∧ r.length < rest.length := by
  by_cases h1 : ((spanDigits rest).1.isEmpty) = true
  · rw [parseTail_empty_fst rest h1] at h
    cases h
  · have h1' : ((spanDigits rest).1.isEmpty) = false := by
      cases hv : (spanDigits rest).1.isEmpty
      · rfl
      · exact absurd hv h1
    rw [parseTail_nonempty_fst rest h1'] at h
    cases hp2 : (spanDigits rest).2 with
    | nil => rw [hp2] at h; cases h
    | cons c r2 =>
      rw [hp2] at h
      simp only at h
      by_cases hcx : c = 'x'
      · simp only [hcx, if_true] at h
        by_cases h2 : ((spanDigits r2).1.isEmpty) = true
        · rw [if_pos h2] at h
          cases h
        · have h2' : ((spanDigits r2).1.isEmpty) = false := by
            cases hv : (spanDigits r2).1.isEmpty
            · rfl
            · exact absurd hv h2
          rw [if_neg (by rw [h2']; exact Bool.false_ne_true)] at h
          injection h with h
          subst h
          constructor
          · exact spanDigits_snd_head r2
          · have e2 := spanDigits_append r2
            have e1 := spanDigits_append rest
            have l2 : (spanDigits r2).1.length + (spanDigits r2).2.length = r2.length := by
              rw [← List.length_append, e2]
            have l1 : (spanDigits rest).1.length + (spanDigits rest).2.length = rest.length := by
              rw [← List.length_append, e1]
            have hne2 : (spanDigits r2).1 ≠ [] := by
              intro hnil
              rw [hnil] at h2'
              cases h2'
            have hne1 : (spanDigits rest).1 ≠ [] := by
              intro hnil
              rw [hnil] at h1'
              cases h1'
            have hp1 : 1 ≤ (spanDigits rest).1.length := by
              cases hc : (spanDigits rest).1
              · exact absurd hc hne1
              · simp [hc]
            have hp2' : 1 ≤ (spanDigits r2).1.length := by
              cases hc : (spanDigits r2).1
              · exact absurd hc hne2
              · simp [hc]
            have hlen2 : (spanDigits rest).2.length = r2.length + 1 := by
              rw [hp2]
              rfl
            omega
      · rw [if_neg hcx] at h
        cases h

theorem matchSize_semi (rest : List Char) :
    matchSize (';' :: 's' :: '=' :: rest) = parseTail rest := by
  simp [matchSize]

theorem matchSize_not_semi {c : Char} (h : c ≠ ';') (l : List Char) :
    matchSize (c :: l) = none := by
  cases l with
  | nil => rfl
  | cons b t =>
    cases t with
    | nil => rfl
    | cons d t2 =>
      simp only [matchSize]
      rw [if_neg]
      rintro ⟨hc, -, -⟩
      exact h hc

theorem matchSize_not_s {c b : Char} (h : b ≠ 's') (l : List Char) :
    matchSize (c :: b :: l) = none := by
  cases l with
  | nil => rfl
  | cons d t2 =>
    simp only [matchSize]
    rw [if_neg]
    rintro ⟨-, hb, -⟩
    exact h hb

theorem matchSize_not_eq {c b d : Char} (h : d ≠ '=') (l : List Char) :
    matchSize (c :: b :: d :: l) = none := by
  simp only [matchSize]
  rw [if_neg]
  rintro ⟨-, -, hd⟩
  exact h hd

theorem matchSize_some_shape (l r : List Char) (h : matchSize l = some r) :
    ∃ rest, l = ';' :: 's' :: '=' :: rest ∧ parseTail rest = some r := by
  cases l with
  | nil => cases h
  | cons c1 t1 =>
    cases t1 with
    | nil => cases h
    | cons c2 t2 =>
      cases t2 with
      | nil => cases h
      | cons c3 rest =>
        simp only [matchSize] at h
        by_cases hc : c1 = ';' ∧ c2 = 's' ∧ c3 = '='
        · obtain ⟨h1, h2, h3⟩ := hc
          subst h1; subst h2; subst h3
          rw [if_pos ⟨rfl, rfl, rfl⟩] at h
          exact ⟨rest, rfl, h⟩
        · rw [if_neg hc] at h
          cases h

theorem matchSize_some_head (l r : List Char) (h : matchSize l = some r) :
    ∀ c, r.head? = some c → c.isDigit = false := by
  obtain ⟨rest, -, hp⟩ := matchSize_some_shape l r h
  exact (parseTail_some_shape rest r hp).1

theorem matchSize_some_len (l r : List Char) (h : matchSize l = some r) :
    r.length < l.length := by
  obtain ⟨rest, hl, hp⟩ := matchSize_some_shape l r h
  have := (parseTail_some_shape rest r hp).2
  rw [hl]
  simp only [List.length_cons]
  omega

theorem bool_not_true {b : Bool} (h : ¬ b = true) : b = false := by
  cases hb : b
  · rfl
  · exact absurd hb h

theorem parseTail_snd_nil (l : List Char)
    (h1 : ((spanDigits l).1.isEmpty) = false) (h2 : (spanDigits l).2 = []) :
    parseTail l = none := by
  simp [parseTail, h1, h2]

theorem parseTail_snd_cons (l : List Char) (z : Char) (r2 : List Char)
    (h1 : ((spanDigits l).1.isEmpty) = false) (h2 : (spanDigits l).2 = z :: r2) :
    parseTail l
      = (if z = 'x' then
          (if (spanDigits r2).1.isEmpty then none else some (spanDigits r2).2)
         else none) := by
  simp [parseTail, h1, h2]

/- ------------------------------------------------------------------ -/
/- Lemmas about the re.sub scanner                                     -/
/- ------------------------------------------------------------------ -/

theorem substGo_nil : ∀ fuel, substGo fuel [] = [] := by
  intro fuel
  cases fuel <;> rfl

theorem substGo_congr : ∀ (n f1 f2 : Nat) (l : List Char),
    l.length ≤ f1 → l.length ≤ f2 → l.length ≤ n → substGo f1 l = substGo f2 l := by
  intro n
  induction n with
  | zero =>
    intro f1 f2 l _ _ h0
    have hl : l = [] := by
      cases l
      · rfl
      · simp at h0
    subst hl
    rw [substGo_nil, substGo_nil]
  | succ n ih =>
    intro f1 f2 l h1 h2 h0
    cases l with
    | nil => rw [substGo_nil, substGo_nil]
    | cons c t =>
      cases f1 with
      | zero => simp at h1
      | succ a =>
        cases f2 with
        | zero => simp at h2
        | succ b =>
          simp only [substGo]
          cases hm : matchSize (c :: t) with
          | some r =>
            have hlen := matchSize_some_len _ _ hm
            simp only [List.length_cons] at h1 h2 h0 hlen
            exact congrArg (fun x => sizeRep ++ x)
              (ih a b r (by omega) (by omega) (by omega))
          | none =>
            simp only [List.length_cons] at h1 h2 h0
            exact congrArg (fun x => c :: x)
              (ih a b t (by omega) (by omega) (by omega))

theorem reSubSize_nil : reSubSize [] = [] := rfl

theorem reSubSize_cons_match {c : Char} {t r : List Char}
    (h : matchSize (c :: t) = some r) :
    reSubSize (c :: t) = sizeRep ++ reSubSize r := by
  have hlen := matchSize_some_len _ _ h
  simp only [List.length_cons] at hlen
  simp only [reSubSize, List.length_cons, substGo, h]
  congr 1
  exact substGo_congr r.length t.length r.length r (by omega) (Nat.le_refl _)
    (Nat.le_refl _)

theorem reSubSize_cons_none {c : Char} {t : List Char}
    (h : matchSize (c :: t) = none) :
    reSubSize (c :: t) = c :: reSubSize t := by
  simp only [reSubSize, List.length_cons, substGo, h]

theorem reSubSize_matchstep (l r : List Char) (h : matchSize l = some r) :
    reSubSize l = sizeRep ++ reSubSize r := by
  obtain ⟨rest, hl, -⟩ := matchSize_some_shape l r h
  subst hl
  exact reSubSize_cons_match h

theorem reSubSize_head_pred (p : Char → Prop) (hsemi : p ';') (l : List Char)
    (h : ∀ c, l.head? = some c → p c) :
    ∀ c, (reSubSize l).head? = some c → p c := by
  cases l with
  | nil =>
    intro c hc
    rw [reSubSize_nil] at hc
    cases hc
  | cons a t =>
    cases hm : matchSize (a :: t) with
    | some r =>
      intro c hc
      rw [reSubSize_cons_match hm] at hc
      have hhd : (sizeRep ++ reSubSize r).head? = some ';' := rfl
      rw [hhd] at hc
      injection hc with hc
      rw [← hc]
      exact hsemi
    | none =>
      intro c hc
      rw [reSubSize_cons_none hm] at hc
      simp only [List.head?_cons] at hc
      injection hc with hc
      rw [← hc]
      exact h a rfl

theorem reSubSize_spanDigits : ∀ l : List Char,
    spanDigits (reSubSize l) = ((spanDigits l).1, reSubSize ((spanDigits l).2)) := by
  intro l
  induction l with
  | nil => rfl
  | cons c t ih =>
    by_cases hd : c.isDigit = true
    · have hc : c ≠ ';' := by
        intro hcc
        rw [hcc] at hd
        exact absurd hd (by decide)
      have hm : matchSize (c :: t) = none := matchSize_not_semi hc t
      rw [reSubSize_cons_none hm, spanDigits_cons_digit c t hd,
          spanDigits_cons_digit c (reSubSize t) hd, ih]
    · have hd' : c.isDigit = false := bool_not_true hd
      rw [spanDigits_cons_not c t hd']
      have hh : ∀ z, (reSubSize (c :: t)).head? = some z → z.isDigit = false :=
        reSubSize_head_pred (fun z => z.isDigit = false) (by decide) (c :: t)
          (fun z hz => by
            simp only [List.head?_cons] at hz
            injection hz with hz
            rw [← hz]
            exact hd')
      rw [spanDigits_of_head_not _ hh]

theorem spanDigits_fst_nil_heads (l : List Char)
    (h : (spanDigits l).1 = []) :
    ∀ c, l.head? = some c → c.isDigit = false := by
  intro c hc
  apply spanDigits_snd_head l c
  have e := spanDigits_append l
  rw [h] at e
  simp only [List.nil_append] at e
  rw [e]
  exact hc

theorem parseTail_none_reSubSize (l : List Char) (h : parseTail l = none) :
    parseTail (reSubSize l) = none := by
  by_cases h1 : ((spanDigits l).1.isEmpty) = true
  · have hfst : (spanDigits l).1 = [] := List.isEmpty_iff.mp h1
    have hh : ∀ c, l.head? = some c → c.isDigit = false :=
      spanDigits_fst_nil_heads l hfst
    have hh2 := reSubSize_head_pred (fun z => z.isDigit = false) (by decide) l hh
    apply parseTail_empty_fst
    rw [spanDigits_of_head_not _ hh2]
    rfl
  · have h1' : ((spanDigits l).1.isEmpty) = false := bool_not_true h1
    have hB := reSubSize_spanDigits l
    cases hr1 : (spanDigits l).2 with
    | nil =>
      have hsp : spanDigits (reSubSize l) = ((spanDigits l).1, ([] : List Char)) := by
        rw [hB, hr1, reSubSize_nil]
      exact parseTail_snd_nil (reSubSize l) (by rw [hsp]; exact h1') (by rw [hsp])
    | cons z r2 =>
      rw [parseTail_snd_cons l z r2 h1' hr1] at h
      by_cases hzx : z = 'x'
      · subst hzx
        rw [if_pos rfl] at h
        have hd2 : ((spanDigits r2).1.isEmpty) = true := by
          by_contra hv
          rw [if_neg (by rw [bool_not_true hv]; exact Bool.false_ne_true)] at h
          cases h
        have hh2 : ∀ c, r2.head? = some c → c.isDigit = false :=
          spanDigits_fst_nil_heads r2 (List.isEmpty_iff.mp hd2)
        have hm : matchSize ('x' :: r2) = none := matchSize_not_semi (by decide) r2
        have hsp : spanDigits (reSubSize l)
            = ((spanDigits l).1, 'x' :: reSubSize r2) := by
          rw [hB, hr1, reSubSize_cons_none hm]
        rw [parseTail_snd_cons (reSubSize l) 'x' (reSubSize r2)
          (by rw [hsp]; exact h1') (by rw [hsp])]
        rw [if_pos rfl]
        have hh2' := reSubSize_head_pred (fun z => z.isDigit = false) (by decide) r2 hh2
        rw [spanDigits_of_head_not _ hh2']
        rfl
      · have hh : ∀ w, (reSubSize (z :: r2)).head? = some w → w ≠ 'x' :=
          reSubSize_head_pred (fun w => w ≠ 'x') (by decide) (z :: r2)
            (fun w hw => by
              simp only [List.head?_cons] at hw
              injection hw with hw
              rw [← hw]
              exact hzx)
        have hsp : spanDigits (reSubSize l)
            = ((spanDigits l).1, reSubSize (z :: r2)) := by
          rw [hB, hr1]
        cases hrs : reSubSize (z :: r2) with
        | nil =>
          exact parseTail_snd_nil (reSubSize l) (by rw [hsp]; exact h1')
            (by rw [hsp, hrs])
        | cons w ws =>
          have hwx : w ≠ 'x' := hh w (by rw [hrs]; rfl)
          rw [parseTail_snd_cons (reSubSize l) w ws (by rw [hsp]; exact h1')
            (by rw [hsp, hrs])]
          rw [if_neg hwx]

theorem matchSize_none_reSubSize {c : Char} {t : List Char}
    (h : matchSize (c :: t) = none) :
    matchSize (c :: reSubSize t) = none := by
  by_cases hc : c = ';'
  · subst hc
    cases t with
    | nil => rfl
    | cons x t' =>
      by_cases hx : x = 's'
      · subst hx
        have hms : matchSize ('s' :: t') = none := matchSize_not_semi (by decide) t'
        rw [reSubSize_cons_none hms]
        cases t' with
        | nil => rfl
        | cons y t'' =>
          by_cases hy : y = '='
          · subst hy
            have hmy : matchSize ('=' :: t'') = none := matchSize_not_semi (by decide) t''
            rw [reSubSize_cons_none hmy, matchSize_semi]
            rw [matchSize_semi] at h
            exact parseTail_none_reSubSize t'' h
          · have hh : ∀ z, (reSubSize (y :: t'')).head? = some z → z ≠ '=' :=
              reSubSize_head_pred (fun z => z ≠ '=') (by decide) (y :: t'')
                (fun z hz => by
                  simp only [List.head?_cons] at hz
                  injection hz with hz
                  rw [← hz]
                  exact hy)
            cases hrs : reSubSize (y :: t'') with
            | nil => rfl
            | cons z zs =>
              exact matchSize_not_eq (hh z (by rw [hrs]; rfl)) zs
      · have hh : ∀ z, (reSubSize (x :: t')).head? = some z → z ≠ 's' :=
          reSubSize_head_pred (fun z => z ≠ 's') (by decide) (x :: t')
            (fun z hz => by
              simp only [List.head?_cons] at hz
              injection hz with hz
              rw [← hz]
              exact hx)
        cases hrs : reSubSize (x :: t') with
        | nil => rfl
        | cons z zs =>
          exact matchSize_not_s (hh z (by rw [hrs]; rfl)) zs
  · exact matchSize_not_semi hc (reSubSize t)

theorem matchSize_sizeRep_append (r : List Char)
    (h : ∀ c, r.head? = some c → c.isDigit = false) :
    matchSize (sizeRep ++ r) = some r := by
  have hr : spanDigits r = ([], r) := spanDigits_of_head_not r h
  have d1 : ('1' : Char).isDigit = true := by decide
  have d6 : ('6' : Char).isDigit = true := by decide
  have d0 : ('0' : Char).isDigit = true := by decide
  have dx : ('x' : Char).isDigit = false := by decide
  have hform : sizeRep ++ r
      = ';' :: 's' :: '=' :: ('1' :: '6' :: '0' :: '0' :: 'x' :: '1' :: '6' :: '0' :: '0' :: r) := rfl
  rw [hform, matchSize_semi]
  have hs2 : spanDigits ('1' :: '6' :: '0' :: '0' :: r) = (['1', '6', '0', '0'], r) := by
    rw [spanDigits_cons_digit _ _ d1, spanDigits_cons_digit _ _ d6,
        spanDigits_cons_digit _ _ d0, spanDigits_cons_digit _ _ d0, hr]
  have hs1 : spanDigits ('1' :: '6' :: '0' :: '0' :: 'x' :: '1' :: '6' :: '0' :: '0' :: r)
      = (['1', '6', '0', '0'], 'x' :: '1' :: '6' :: '0' :: '0' :: r) := by
    rw [spanDigits_cons_digit _ _ d1, spanDigits_cons_digit _ _ d6,
        spanDigits_cons_digit _ _ d0, spanDigits_cons_digit _ _ d0,
        spanDigits_cons_not _ _ dx]
  rw [parseTail_snd_cons _ 'x' ('1' :: '6' :: '0' :: '0' :: r)
    (by rw [hs1]; rfl) (by rw [hs1])]
  rw [if_pos rfl, hs2]
  rfl

theorem reSubSize_fix_or_key : ∀ l : List Char,
    reSubSize l = l ∨ hasSub sizeKeyNeedle (reSubSize l) = true := by
  intro l
  induction l with
  | nil => exact Or.inl rfl
  | cons c t ih =>
    cases hm : matchSize (c :: t) with
    | some r =>
      right
      rw [reSubSize_cons_match hm]
      exact hasSub_of_lpre rfl
    | none =>
      rw [reSubSize_cons_none hm]
      rcases ih with hfix | hkey
      · exact Or.inl (by rw [hfix])
      · right
        simp [hasSub, hkey]

theorem reSubSize_idem : ∀ l : List Char, reSubSize (reSubSize l) = reSubSize l := by
  have H : ∀ (n : Nat) (l : List Char), l.length ≤ n →
      reSubSize (reSubSize l) = reSubSize l := by
    intro n
    induction n with
    | zero =>
      intro l h0
      have hl : l = [] := by
        cases l
        · rfl
        · simp at h0
      subst hl
      rfl
    | succ n ih =>
      intro l h0
      cases l with
      | nil => rfl
      | cons c t =>
        simp only [List.length_cons] at h0
        cases hm : matchSize (c :: t) with
        | some r =>
          have hlen := matchSize_some_len _ _ hm
          simp only [List.length_cons] at hlen
          have hhead := matchSize_some_head _ _ hm
          have hhead2 := reSubSize_head_pred (fun z => z.isDigit = false)
            (by decide) r hhead
          rw [reSubSize_cons_match hm]
          have hms2 : matchSize (sizeRep ++ reSubSize r) = some (reSubSize r) :=
            matchSize_sizeRep_append (reSubSize r) hhead2
          rw [reSubSize_matchstep _ _ hms2]
          rw [ih r (by omega)]
        | none =>
          rw [reSubSize_cons_none hm]
          have hm2 := matchSize_none_reSubSize hm
          rw [reSubSize_cons_none hm2]
          rw [ih t (by omega)]
  intro l
  exact H l.length l (Nat.le_refl _)

theorem reSubSize_append (w v : List Char)
    (hw : hasSub sizeKeyNeedle w = false)
    (hv1 : ∀ c, v.head? = some c → c ≠ 's')
    (hv2 : ∀ c, v.head? = some c → c ≠ '=') :
    reSubSize (w ++ v) = w ++ reSubSize v := by
  induction w with
  | nil => rfl
  | cons c w' ih =>
    have hw0 : lpre sizeKeyNeedle (c :: w') = false
        ∧ hasSub sizeKeyNeedle w' = false := by
      simpa [hasSub] using hw
    have hw' : hasSub sizeKeyNeedle w' = false := hw0.2
    have hwl : lpre sizeKeyNeedle (c :: w') = false := hw0.1
    have hm : matchSize (c :: (w' ++ v)) = none := by
      cases hms : matchSize (c :: (w' ++ v)) with
      | none => rfl
      | some r =>
        obtain ⟨rest, hshape, -⟩ := matchSize_some_shape _ _ hms
        exfalso
        cases w' with
        | nil =>
          have hv' : v = 's' :: '=' :: rest := by
            injection hshape with h1 h2
          have := hv1 's' (by rw [hv']; rfl)
          exact this rfl
        | cons b w'' =>
          injection hshape with hc1 hrest1
          cases w'' with
          | nil =>
            injection hrest1 with hb1 hrest2
            have hv' : v = '=' :: rest := hrest2
            have := hv2 '=' (by rw [hv']; rfl)
            exact this rfl
          | cons d w3 =>
            injection hrest1 with hb1 hrest2
            injection hrest2 with hd1 hrest3
            subst hc1
            subst hb1
            subst hd1
            have : lpre sizeKeyNeedle (';' :: 's' :: '=' :: w3) = true := rfl
            rw [this] at hwl
            cases hwl
    rw [List.cons_append, reSubSize_cons_none hm, ih hw', List.cons_append]

/- ------------------------------------------------------------------ -/
/- Suffix and rstrip lemmas, and concrete needle facts                 -/
/- ------------------------------------------------------------------ -/

theorem endsWithL_exists (l suf : List Char) (h : endsWithL l suf = true) :
    ∃ w, l = w ++ suf := by
  unfold endsWithL at h
  obtain ⟨t, ht⟩ := lpre_exists suf.reverse l.reverse h
  refine ⟨t.reverse, ?_⟩
  have h2 := congrArg List.reverse ht
  simpa [List.reverse_append] using h2

theorem rstripSlash_keep (l : List Char)
    (h : ∀ c, l.reverse.head? = some c → c ≠ '/') : rstripSlash l = l := by
  unfold rstripSlash
  cases hrev : l.reverse with
  | nil =>
    have hl : l = [] := by
      have h2 := congrArg List.reverse hrev
      simpa using h2
    subst hl
    rfl
  | cons c rest =>
    have hc : c ≠ '/' := h c (by rw [hrev]; rfl)
    rw [List.dropWhile_cons]
    rw [if_neg (by simp [hc])]
    rw [← hrev, List.reverse_reverse]

theorem rstripSlash_semi (w : List Char) :
    rstripSlash (w ++ imageSemiNeedle) = w ++ imageSemiNeedle := by
  apply rstripSlash_keep
  intro c hc
  rw [List.reverse_append] at hc
  have hrev : imageSemiNeedle.reverse
      = ';' :: ('e' :: 'g' :: 'a' :: 'm' :: 'i' :: '/' :: []) := rfl
  rw [hrev] at hc
  simp only [List.cons_append, List.head?_cons] at hc
  injection hc with hc
  rw [← hc]
  decide

theorem semi_append_suffix : imageSemiNeedle ++ sizeSuffixText = imageNeedle ++ sizeRep := by
  decide

theorem key_in_sizeRep : hasSub sizeKeyNeedle sizeRep = true := by decide

theorem reSubSize_sizeRep : reSubSize sizeRep = sizeRep := by decide

theorem sizeRep_head_ne_s : ∀ c, sizeRep.head? = some c → c ≠ 's' := by
  intro c hc
  rw [show sizeRep.head? = some ';' from rfl] at hc
  injection hc with hc
  rw [← hc]
  decide

theorem sizeRep_head_ne_eq : ∀ c, sizeRep.head? = some c → c ≠ '=' := by
  intro c hc
  rw [show sizeRep.head? = some ';' from rfl] at hc
  injection hc with hc
  rw [← hc]
  decide

/-- C6, counterexample to the claim as stated: the apollo CDN URL
apollo.olxcdn.com/image;x (a /image; segment in the middle, no ;s=
marker) gains the text s=1600x1600 on every pass, so applying the
rewrite twice differs from applying it once. -/
theorem c6_normalize_not_idempotent :
    normalizeImageUrl (normalizeImageUrl c6BadUrl) ≠ normalizeImageUrl c6BadUrl := by
  decide

/-- C6 amended: the CDN rewrite is idempotent for every URL that already
carries a ;s= marker, or has no /image; segment at all, or ends with
/image; (the shape the scraper actually produces); it is not idempotent
exactly on apollo image URLs with a bare /image; in the middle, where
each pass appends another s=1600x1600. -/
theorem c6_normalize_idem_amended :
    ∀ u : List Char,
      (hasSub sizeKeyNeedle u = true ∨ hasSub imageSemiNeedle u = false
        ∨ endsWithL u imageSemiNeedle = true) →
      normalizeImageUrl (normalizeImageUrl u) = normalizeImageUrl u := by
  intro u hcond
  by_cases h0 : (hasSub apolloNeedle u && hasSub imageNeedle u) = true
  · by_cases h1 : hasSub sizeKeyNeedle u = true
    · have hn : normalizeImageUrl u = reSubSize u := by
        simp only [normalizeImageUrl]
        rw [if_pos h0, if_pos h1]
      rw [hn]
      rcases reSubSize_fix_or_key u with hfix | hkey
      · rw [hfix]
        exact hn.trans hfix
      · by_cases h2 : (hasSub apolloNeedle (reSubSize u)
            && hasSub imageNeedle (reSubSize u)) = true
        · have hn2 : normalizeImageUrl (reSubSize u) = reSubSize (reSubSize u) := by
            simp only [normalizeImageUrl]
            rw [if_pos h2, if_pos hkey]
          rw [hn2, reSubSize_idem]
        · simp only [normalizeImageUrl]
          rw [if_neg h2]
    · have h1f : hasSub sizeKeyNeedle u = false := bool_not_true h1
      by_cases h2 : hasSub imageSemiNeedle u = true
      · have hend : endsWithL u imageSemiNeedle = true := by
          rcases hcond with hc | hc | hc
          · rw [hc] at h1f; cases h1f
          · rw [h2] at hc; cases hc
          · exact hc
        obtain ⟨w, rfl⟩ := endsWithL_exists u imageSemiNeedle hend
        have hn : normalizeImageUrl (w ++ imageSemiNeedle)
            = (w ++ imageNeedle) ++ sizeRep := by
          simp only [normalizeImageUrl]
          rw [if_pos h0, if_neg (by rw [h1f]; exact Bool.false_ne_true),
              if_pos h2, rstripSlash_semi w]
          rw [List.append_assoc, List.append_assoc, semi_append_suffix]
        have hw : hasSub sizeKeyNeedle (w ++ imageNeedle) = false := by
          apply hasSub_prefix_false sizeKeyNeedle (w ++ imageNeedle) (';' :: [])
          have hsplit : (w ++ imageNeedle) ++ (';' :: []) = w ++ imageSemiNeedle := by
            rw [List.append_assoc]
            rfl
          rw [hsplit]
          exact h1f
        have hs1 : reSubSize ((w ++ imageNeedle) ++ sizeRep)
            = (w ++ imageNeedle) ++ sizeRep := by
          rw [reSubSize_append (w ++ imageNeedle) sizeRep hw sizeRep_head_ne_s
            sizeRep_head_ne_eq, reSubSize_sizeRep]
        rw [hn]
        by_cases h3 : (hasSub apolloNeedle ((w ++ imageNeedle) ++ sizeRep)
            && hasSub imageNeedle ((w ++ imageNeedle) ++ sizeRep)) = true
        · have hkey1 : hasSub sizeKeyNeedle ((w ++ imageNeedle) ++ sizeRep) = true :=
            hasSub_append_right _ _ _ key_in_sizeRep
          have hn2 : normalizeImageUrl ((w ++ imageNeedle) ++ sizeRep)
              = reSubSize ((w ++ imageNeedle) ++ sizeRep) := by
            simp only [normalizeImageUrl]
            rw [if_pos h3, if_pos hkey1]
          rw [hn2, hs1]
        · simp only [normalizeImageUrl]
          rw [if_neg h3]
      · have h2f : hasSub imageSemiNeedle u = false := bool_not_true h2
        by_cases h3 : endsWithL u imageNeedle = true
        · have hn : normalizeImageUrl u = u ++ sizeRep := by
            simp only [normalizeImageUrl]
            rw [if_pos h0, if_neg (by rw [h1f]; exact Bool.false_ne_true),
                if_neg (by rw [h2f]; exact Bool.false_ne_true), if_pos h3]
          have hs1 : reSubSize (u ++ sizeRep) = u ++ sizeRep := by
            rw [reSubSize_append u sizeRep h1f sizeRep_head_ne_s sizeRep_head_ne_eq,
                reSubSize_sizeRep]
          rw [hn]
          by_cases h4 : (hasSub apolloNeedle (u ++ sizeRep)
              && hasSub imageNeedle (u ++ sizeRep)) = true
          · have hkey1 : hasSub sizeKeyNeedle (u ++ sizeRep) = true :=
              hasSub_append_right _ _ _ key_in_sizeRep
            have hn2 : normalizeImageUrl (u ++ sizeRep)
                = reSubSize (u ++ sizeRep) := by
              simp only [normalizeImageUrl]
              rw [if_pos h4, if_pos hkey1]
            rw [hn2, hs1]
          · simp only [normalizeImageUrl]
            rw [if_neg h4]
        · have hn : normalizeImageUrl u = u := by
            simp only [normalizeImageUrl]
            rw [if_pos h0, if_neg (by rw [h1f]; exact Bool.false_ne_true),
                if_neg (by rw [h2f]; exact Bool.false_ne_true),
                if_neg (by rw [bool_not_true h3]; exact Bool.false_ne_true)]
          rw [hn, hn]
  · have hu : normalizeImageUrl u = u := by
      simp only [normalizeImageUrl]
      rw [if_neg h0]
    rw [hu, hu]

/-- Witness for the amended C6: idempotence at a real-shaped otodom CDN
URL ending in /image;. -/
theorem c6_normalize_idem_amended_witness :
    endsWithL c6GoodUrl imageSemiNeedle = true
    ∧ normalizeImageUrl (normalizeImageUrl c6GoodUrl) = normalizeImageUrl c6GoodUrl :=
  ⟨by decide,
    c6_normalize_idem_amended c6GoodUrl (Or.inr (Or.inr (by decide)))⟩
